import Mathlib

/-!
Shallow embedding of the read-buf crate (src/lib.rs, src/read_buf.rs,
src/read_bufs.rs, src/read.rs, src/vec.rs).

Modelling conventions:
- a possibly-uninitialized byte is an `Option Nat` (`none` = uninitialized,
  `some v` = initialized with value `v`);
- `MaybeUninit<u8>` slices are `List (Option Nat)`, initialized `u8` slices
  (obtained in the source by transmute after the tracking logic has proved
  initialization) are read through `initView`, which maps `none` to 0 --
  the default is never reached on the initialized views the code produces;
- Rust panics (out-of-range slice indexing, `expect`, `checked_sub` failure)
  are modelled by returning `none` from an `Option`-valued function;
- the external read source (a socket in the source) is a finite list of
  events: `chunk d` makes the next read deliver the bytes `d` (clipped to
  the provided region), `ioerr e` makes it fail with OS error code `e`;
  an exhausted list models end of stream (every further read returns 0);
- loops (`read_buf_exact`, `read_to_end2`, `copy`) are written with a fuel
  parameter; the wrappers pass enough fuel, and fuel exhaustion returns
  `none`, which the theorems show is never hit on the stated inputs.
-/

/-- Errors surfaced by the read layer: an OS error with its code, or the
premature end-of-stream condition of read_buf_exact. -/
inductive IOErr where
  | unexpectedEof : IOErr
  | os : Nat → IOErr
deriving DecidableEq, Repr

/-- One event of the external byte source. -/
inductive SourceItem where
  | chunk : List Nat → SourceItem
  | ioerr : Nat → SourceItem
deriving DecidableEq, Repr

/-- The external byte source: a finite script of read outcomes. -/
abbrev Source := List SourceItem

deriving instance DecidableEq for Except

/-- Reading a region of bytes through the initialized-view transmute. -/
def initView (l : List (Option Nat)) : List Nat :=
  l.map (fun o => o.getD 0)

/-- Writes zero bytes at positions lo, lo+1, ..., hi-1 of the region;
models the zero-fill loop of ReadBuf.as_init_to. -/
def zeroRange (l : List (Option Nat)) (lo hi : Nat) : List (Option Nat) :=
  l.take lo ++ List.replicate (min hi l.length - lo) (some 0) ++ l.drop hi

/-- Writes zero bytes from position start to the end of the region; models
the per-slice zero-fill loop of ReadBufs.as_init_to. -/
def zeroFrom (start : Nat) (l : List (Option Nat)) : List (Option Nat) :=
  l.take start ++ List.replicate (l.length - start) (some 0)

/-- Total number of bytes of a sequence of regions. -/
def sumLens (bufs : List (List (Option Nat))) : Nat :=
  (bufs.map List.length).sum

/-- ReadBuf (src/read_buf.rs): a slice of incrementally-initialized bytes
together with the count of bytes known initialized. -/
structure ReadBuf where
  buf : List (Option Nat)
  initialized : Nat
deriving DecidableEq, Repr

/-- ReadBuf.new: construction from a fully initialized slice. -/
def ReadBuf.new (l : List Nat) : ReadBuf :=
  ⟨l.map some, l.length⟩

/-- ReadBuf.new_uninit: construction from a fully uninitialized slice. -/
def ReadBuf.new_uninit (l : List (Option Nat)) : ReadBuf :=
  ⟨l, 0⟩

/-- ReadBuf.len. -/
def ReadBuf.len (b : ReadBuf) : Nat :=
  b.buf.length

/-- ReadBuf.assume_initialized: monotone raise of the cursor. -/
def ReadBuf.assume_initialized (b : ReadBuf) (n : Nat) : ReadBuf :=
  { b with initialized := max b.initialized n }

/-- ReadBuf.as_uninit: the whole region as maybe-uninitialized bytes. -/
def ReadBuf.as_uninit (b : ReadBuf) : List (Option Nat) :=
  b.buf

/-- ReadBuf.as_slices: split at the cursor; split_at_mut panics when the
cursor exceeds the length, modelled by none. -/
def ReadBuf.as_slices (b : ReadBuf) : Option (List Nat × List (Option Nat)) :=
  if b.initialized ≤ b.buf.length then
    some (initView (b.buf.take b.initialized), b.buf.drop b.initialized)
  else
    none

/-- ReadBuf.as_init_to: zero-fill bytes between the cursor and len, raise
the cursor, return the first len bytes; panics (none) when the slice does
not have len elements. -/
def ReadBuf.as_init_to (b : ReadBuf) (len : Nat) : Option (List (Option Nat) × ReadBuf) :=
  if len > b.buf.length then
    none
  else
    let buf2 := if len > b.initialized then zeroRange b.buf b.initialized len else b.buf
    some (buf2.take len, ⟨buf2, max b.initialized len⟩)

/-- ReadBuf.as_init: as_init_to over the whole slice; that call never
panics, so the default value of getD is never used. -/
def ReadBuf.as_init (b : ReadBuf) : List (Option Nat) × ReadBuf :=
  (b.as_init_to b.buf.length).getD (b.buf, b)

/-- ReadBufs (src/read_bufs.rs): a set of incrementally-initialized byte
slices with one cumulative cursor. -/
structure ReadBufs where
  bufs : List (List (Option Nat))
  initialized : Nat
deriving DecidableEq, Repr

/-- ReadBufs.new: construction from fully initialized slices; the cursor is
the sum of the lengths. -/
def ReadBufs.new (bufs : List (List Nat)) : ReadBufs :=
  ⟨bufs.map (fun l => l.map some), (bufs.map List.length).sum⟩

/-- ReadBufs.new_uninit: construction from fully uninitialized slices. -/
def ReadBufs.new_uninit (bufs : List (List (Option Nat))) : ReadBufs :=
  ⟨bufs, 0⟩

/-- ReadBufs.assume_initialized: monotone raise of the cumulative cursor. -/
def ReadBufs.assume_initialized (r : ReadBufs) (n : Nat) : ReadBufs :=
  { r with initialized := max r.initialized n }

/-- ReadBufs.as_uninit. -/
def ReadBufs.as_uninit (r : ReadBufs) : List (List (Option Nat)) :=
  r.bufs

/-- The position scan of ReadBufs.as_slices: first index whose slice
strictly contains the remaining cursor; when the scan runs out, the split
is the full length if the cursor is exactly consumed, otherwise the code
panics with invalid initialized state (modelled by none). -/
def splitPos : List (List (Option Nat)) → Nat → Option Nat
  | [], remaining => if remaining = 0 then some 0 else none
  | b :: bs, remaining =>
    if remaining < b.length then
      some 0
    else
      match splitPos bs (remaining - b.length) with
      | none => none
      | some k => some (k + 1)

/-- ReadBufs.as_slices: fully initialized leading slices and the rest; a
slice holding the cursor strictly inside goes to the rest. -/
def ReadBufs.as_slices (r : ReadBufs) :
    Option (List (List Nat) × List (List (Option Nat))) :=
  match splitPos r.bufs r.initialized with
  | none => none
  | some k => some ((r.bufs.take k).map initView, r.bufs.drop k)

/-- The position scan of ReadBufs.as_init_to, mirroring the source closure:
walking the slices it zero-fills every slice that extends past the cursor
from within-slice index initialized - len (saturating), accumulates
seen_len, and stops at the first slice where seen_len reaches len.  Returns
(cutoff, final seen_len, updated slices); none models the
expect invalid len panic. -/
def asInitToStep : List (List (Option Nat)) → Nat → Nat → Nat →
    Option (Nat × Nat × List (List (Option Nat)))
  | [], _, _, _ => none
  | b :: bs, seen, init, len =>
    let b2 := if seen + b.length > init then zeroFrom (init - len) b else b
    let seen2 := seen + b.length
    if seen2 ≥ len then
      some (0, seen2, b2 :: bs)
    else
      match asInitToStep bs seen2 init len with
      | none => none
      | some (c, s, rest) => some (c + 1, s, b2 :: rest)

/-- ReadBufs.as_init_to: run the scan from seen_len 0, raise the cursor to
seen_len by assume_initialized, return the slices up to the cutoff
inclusive. -/
def ReadBufs.as_init_to (r : ReadBufs) (len : Nat) :
    Option (List (List (Option Nat)) × ReadBufs) :=
  match asInitToStep r.bufs 0 r.initialized len with
  | none => none
  | some (cutoff, seen, bufs2) =>
    some (bufs2.take (cutoff + 1), ⟨bufs2, max r.initialized seen⟩)

/-- ReadBufs.as_init: as_init_to over the total length. -/
def ReadBufs.as_init (r : ReadBufs) :
    Option (List (List (Option Nat)) × ReadBufs) :=
  r.as_init_to (sumLens r.bufs)

/-- Invariant of ReadBuf: the cursor never exceeds the region length. -/
@[reducible]
def ReadBuf.wf (b : ReadBuf) : Prop :=
  b.initialized ≤ b.buf.length

/-- Invariant of ReadBufs: the cumulative cursor never exceeds the total
length of the slices. -/
@[reducible]
def ReadBufs.wf (r : ReadBufs) : Prop :=
  r.initialized ≤ sumLens r.bufs

/-- VecModel (src/vec.rs plus the Vec operations used by read_to_end2): a
growable array is a backing region of possibly-uninitialized bytes whose
length is the capacity, plus the logical length; the first len bytes are
the contents. -/
structure VecModel where
  data : List (Option Nat)
  len : Nat
deriving DecidableEq, Repr

/-- Vec.capacity. -/
def VecModel.capacity (v : VecModel) : Nat :=
  v.data.length

/-- VecExt.spare_capacity_mut: the region between len and capacity. -/
def VecModel.spare_capacity_mut (v : VecModel) : List (Option Nat) :=
  v.data.drop v.len

/-- Vec.reserve(32), modelled as extending the backing region by exactly 32
uninitialized bytes (the minimal guarantee of the external collaborator). -/
def VecModel.reserve32 (v : VecModel) : VecModel :=
  ⟨v.data ++ List.replicate 32 (none : Option Nat), v.len⟩

/-- Plain Read::read of the external source into an initialized view: an
exhausted script reads 0 bytes, an ioerr event fails, a chunk event writes
its bytes (clipped to the view length) at the start of the view.  Returns
the rest of the script and the outcome. -/
def readRaw : Source → List Nat → Source × Except IOErr (Nat × List Nat)
  | [], view => ([], .ok (0, view))
  | .ioerr e :: rest, _ => (rest, .error (.os e))
  | .chunk d :: rest, view =>
    let n := min d.length view.length
    (rest, .ok (n, d.take n ++ view.drop n))

/-- The default Read2::read_buf implementation (read.rs lines 14-16):
materialize the whole region with as_init, then delegate to read; the
mutation of the view is written back into the buffer. -/
def read_buf_default (src : Source) (b : ReadBuf) :
    Source × Except IOErr Nat × ReadBuf :=
  let p := b.as_init
  match readRaw src (initView p.1) with
  | (src2, .ok (n, v2)) => (src2, .ok n, ⟨v2.map some, p.2.initialized⟩)
  | (src2, .error e) => (src2, .error e, p.2)

/-- The outcome of one libc read call of the TcpStream override: either an
error code, or the bytes the system wrote at the start of the region. -/
inductive SysReadResult where
  | ok : List Nat → SysReadResult
  | err : Nat → SysReadResult
deriving DecidableEq, Repr

/-- The TcpStream override of read_buf (read.rs lines 95-107): issue the
system read into the raw region; on a negative result surface the OS error
with the buffer untouched; otherwise declare the returned count
initialized via assume_initialized and return it. -/
def tcp_read_buf (ret : SysReadResult) (b : ReadBuf) : ReadBuf × Except IOErr Nat :=
  match ret with
  | .err e => (b, .error (.os e))
  | .ok data =>
    let n := min data.length b.buf.length
    ((ReadBuf.assume_initialized ⟨(data.take n).map some ++ b.buf.drop n, b.initialized⟩ n),
      .ok n)

/-- The loop of Read2::read_buf_exact (read.rs lines 32-57).  State: the
source script, the outer buffer, and base (bytes read so far).  Each
iteration builds a temporary ReadBuf over the tail from base, carrying the
initialized count of the tail (checked_sub panic modelled by none), reads
into it with the default read_buf, writes the tail back, treats a 0-byte
read as UnexpectedEof, and otherwise raises the outer cursor and advances
base.  The result records the source, the buffer, the final base and the
outcome; the fuel only bounds the iteration count. -/
def read_buf_exact_loop : Nat → Source → ReadBuf → Nat →
    Option (Source × ReadBuf × Nat × Except IOErr Unit)
  | 0, _, _, _ => none
  | fuel + 1, src, b, base =>
    if b.buf.length ≤ base then
      some (src, b, base, .ok ())
    else if b.initialized < base then
      none
    else
      let temp := (ReadBuf.new_uninit (b.buf.drop base)).assume_initialized
        (b.initialized - base)
      match read_buf_default src temp with
      | (src2, .error e, temp2) =>
        some (src2, ⟨b.buf.take base ++ temp2.buf, b.initialized⟩, base, .error e)
      | (src2, .ok n, temp2) =>
        if n = 0 then
          some (src2, ⟨b.buf.take base ++ temp2.buf, b.initialized⟩, base,
            .error .unexpectedEof)
        else
          read_buf_exact_loop fuel src2
            ⟨b.buf.take base ++ temp2.buf, max b.initialized (base + temp2.initialized)⟩
            (base + n)

/-- Read2::read_buf_exact: run the loop from base 0 with enough fuel. -/
def read_buf_exact (src : Source) (b : ReadBuf) :
    Option (Source × ReadBuf × Nat × Except IOErr Unit) :=
  read_buf_exact_loop (b.buf.length + 1) src b 0

/-- The loop of Read2::read_to_end2 (read.rs lines 63-91).  State: source,
vector, the carried over-initialization of the spare capacity, and the
initial length.  Each iteration reserves 32 bytes when full, wraps the
spare capacity as a ReadBuf carrying the over-initialization, reads with
the default read_buf, writes the spare region back; a 0-byte read returns
the bytes appended; otherwise the new over-initialization is
initialized - nread (checked_sub panic modelled by none) and the logical
length advances by nread. -/
def read_to_end2_loop : Nat → Source → VecModel → Nat → Nat →
    Option (Source × VecModel × Except IOErr Nat)
  | 0, _, _, _, _ => none
  | fuel + 1, src, v0, initialized, initial_len =>
    let v := if v0.len = v0.capacity then v0.reserve32 else v0
    let rb := (ReadBuf.new_uninit v.spare_capacity_mut).assume_initialized initialized
    match read_buf_default src rb with
    | (src2, .error e, rb2) =>
      some (src2, ⟨v.data.take v.len ++ rb2.buf, v.len⟩, .error e)
    | (src2, .ok nread, rb2) =>
      let v2 : VecModel := ⟨v.data.take v.len ++ rb2.buf, v.len⟩
      if nread = 0 then
        some (src2, v2, .ok (v2.len - initial_len))
      else if rb2.initialized < nread then
        none
      else
        read_to_end2_loop fuel src2 ⟨v2.data, v2.len + nread⟩
          (rb2.initialized - nread) initial_len

/-- Read2::read_to_end2: run the loop with no carried initialization and
the current length as initial length, with enough fuel. -/
def read_to_end2 (src : Source) (v : VecModel) :
    Option (Source × VecModel × Except IOErr Nat) :=
  read_to_end2_loop (src.length + 1) src v 0 v.len

/-- The loop of copy (read.rs lines 129-146).  State: source, the reused
4096-byte ReadBuf, the running total, and the list of writes accepted so
far by the sink (write_all modelled as an always-accepting accumulator).
A read error propagates; a 0-byte read returns the total; otherwise the
first nread bytes of the initialized half of as_slices are written. -/
def copy_loop : Nat → Source → ReadBuf → Nat → List (List Nat) →
    Option (Except IOErr (Nat × List (List Nat)))
  | 0, _, _, _, _ => none
  | fuel + 1, src, b, len, ws =>
    match read_buf_default src b with
    | (_, .error e, _) => some (.error e)
    | (src2, .ok nread, b2) =>
      if nread = 0 then
        some (.ok (len, ws))
      else
        match b2.as_slices with
        | none => none
        | some (hd, _) => copy_loop fuel src2 b2 (len + nread) (ws ++ [hd.take nread])

/-- copy: drive the loop over a fresh fully-uninitialized 4096-byte stack
buffer, with enough fuel. -/
def copy (src : Source) : Option (Except IOErr (Nat × List (List Nat))) :=
  copy_loop (src.length + 1) src (ReadBuf.new_uninit (List.replicate 4096 none)) 0 []

-- sanity checks against the crate test suite (read_buf.rs, read_bufs.rs)
example : (ReadBuf.new [1, 1]).initialized = 2 := by decide

/-! Helper lemmas about the list primitives of the embedding. -/

theorem initView_length (l : List (Option Nat)) : (initView l).length = l.length := by
  simp [initView]

theorem initView_map_some (l : List Nat) : initView (l.map some) = l := by
  induction l with
  | nil => rfl
  | cons a t ih =>
    simp [initView] at ih ⊢
    exact ih

theorem initView_getElem? (l : List (Option Nat)) (i : Nat) :
    (initView l)[i]? = l[i]?.map (fun o => o.getD 0) := by
  simp [initView]

theorem map_some_initView (l : List (Option Nat))
    (h : ∀ i, i < l.length → ∃ x, l[i]? = some (some x)) :
    (initView l).map some = l := by
  apply List.ext_getElem?
  intro i
  by_cases hi : i < l.length
  · obtain ⟨x, hx⟩ := h i hi
    simp [initView, hx]
  · have h1 : l[i]? = none := by
      rw [List.getElem?_eq_none_iff]
      omega
    have h2 : ((initView l).map some)[i]? = none := by
      rw [List.getElem?_eq_none_iff]
      simp [initView_length]
      omega
    rw [h1, h2]

theorem zeroRange_length (l : List (Option Nat)) (lo hi : Nat) (h1 : lo ≤ hi)
    (h2 : hi ≤ l.length) : (zeroRange l lo hi).length = l.length := by
  simp [zeroRange]
  omega

theorem zeroRange_getElem?_lt (l : List (Option Nat)) (lo hi i : Nat) (h : i < lo)
    (h1 : lo ≤ hi) (h2 : hi ≤ l.length) : (zeroRange l lo hi)[i]? = l[i]? := by
  have htl : (l.take lo).length = lo := by
    simp
    omega
  unfold zeroRange
  rw [List.append_assoc, List.getElem?_append_left (by omega), List.getElem?_take_of_lt h]

theorem zeroRange_getElem?_mid (l : List (Option Nat)) (lo hi i : Nat) (hlo : lo ≤ i)
    (hhi : i < hi) (h2 : hi ≤ l.length) : (zeroRange l lo hi)[i]? = some (some 0) := by
  have htl : (l.take lo).length = lo := by
    simp
    omega
  unfold zeroRange
  rw [List.append_assoc, List.getElem?_append_right (by omega), htl,
    List.getElem?_append_left, List.getElem?_replicate_of_lt (by omega)]
  simp
  omega

theorem zeroFrom_length (s : Nat) (l : List (Option Nat)) :
    (zeroFrom s l).length = l.length := by
  simp [zeroFrom]
  omega

theorem sumLens_nil : sumLens [] = 0 := rfl

theorem sumLens_cons (b : List (Option Nat)) (bs : List (List (Option Nat))) :
    sumLens (b :: bs) = b.length + sumLens bs := by
  simp [sumLens]

theorem natSum_take_le (l : List Nat) : ∀ i, (l.take i).sum ≤ l.sum := by
  induction l with
  | nil => intro i; simp
  | cons a t ih =>
    intro i
    cases i with
    | zero => simp
    | succ j => simpa using Nat.add_le_add_left (ih j) a

theorem natSum_take_mono (l : List Nat) {i j : Nat} (h : i ≤ j) :
    (l.take i).sum ≤ (l.take j).sum := by
  have h2 := natSum_take_le (l.take j) i
  rwa [List.take_take, Nat.min_eq_left h] at h2

theorem sumLens_take_eq (l : List (List (Option Nat))) (i : Nat) :
    sumLens (l.take i) = ((l.map List.length).take i).sum := by
  simp [sumLens, List.map_take]

theorem sumLens_take_le (l : List (List (Option Nat))) (i : Nat) :
    sumLens (l.take i) ≤ sumLens l := by
  rw [sumLens_take_eq]
  exact natSum_take_le _ i

theorem sumLens_take_mono (l : List (List (Option Nat))) {i j : Nat} (h : i ≤ j) :
    sumLens (l.take i) ≤ sumLens (l.take j) := by
  rw [sumLens_take_eq, sumLens_take_eq]
  exact natSum_take_mono _ h

theorem sumLens_map_length_eq {l1 l2 : List (List (Option Nat))}
    (h : l1.map List.length = l2.map List.length) : sumLens l1 = sumLens l2 := by
  simp [sumLens, h]

/-! Characterization of the as_init_to scan of ReadBufs. -/

theorem asInitToStep_spec :
    ∀ (bs : List (List (Option Nat))) (seen init len c s : Nat)
      (bs2 : List (List (Option Nat))),
      asInitToStep bs seen init len = some (c, s, bs2) →
      c < bs.length ∧
      s = seen + sumLens (bs.take (c + 1)) ∧
      bs2.map List.length = bs.map List.length ∧
      len ≤ s ∧
      (∀ j, j < c → seen + sumLens (bs.take (j + 1)) < len) := by
  intro bs
  induction bs with
  | nil =>
    intro seen init len c s bs2 h
    simp [asInitToStep] at h
  | cons b rest ih =>
    intro seen init len c s bs2 h
    simp only [asInitToStep] at h
    by_cases hstop : seen + b.length ≥ len
    · rw [if_pos hstop] at h
      simp only [Option.some.injEq, Prod.mk.injEq] at h
      obtain ⟨hc, hs, hb⟩ := h
      subst hc
      subst hs
      subst hb
      refine ⟨by simp, ?_, ?_, hstop, by omega⟩
      · simp [sumLens_cons, sumLens_nil]
      · split
        · simp [zeroFrom_length]
        · rfl
    · rw [if_neg hstop] at h
      cases hrec : asInitToStep rest (seen + b.length) init len with
      | none =>
        rw [hrec] at h
        simp at h
      | some r =>
        obtain ⟨c1, s1, rest1⟩ := r
        rw [hrec] at h
        simp only [Option.some.injEq, Prod.mk.injEq] at h
        obtain ⟨hc, hs, hb⟩ := h
        obtain ⟨ih1, ih2, ih3, ih4, ih5⟩ := ih (seen + b.length) init len c1 s1 rest1 hrec
        subst hc
        subst hs
        subst hb
        refine ⟨by simpa using ih1, ?_, ?_, ih4, ?_⟩
        · rw [ih2, List.take_succ_cons, sumLens_cons]
          omega
        · simp only [List.map_cons, ih3, List.cons.injEq]
          constructor
          · split
            · simp [zeroFrom_length]
            · rfl
          · trivial
        · intro j hj
          cases j with
          | zero =>
            rw [List.take_succ_cons, List.take_zero]
            rw [sumLens_cons, sumLens_nil]
            omega
          | succ j2 =>
            have h5 := ih5 j2 (by omega)
            rw [List.take_succ_cons, sumLens_cons]
            omega

theorem asInitToStep_isSome :
    ∀ (bs : List (List (Option Nat))) (seen init len : Nat), bs ≠ [] →
      len ≤ seen + sumLens bs →
      ∃ r, asInitToStep bs seen init len = some r := by
  intro bs
  induction bs with
  | nil => intro seen init len h; exact absurd rfl h
  | cons b rest ih =>
    intro seen init len _ hlen
    simp only [asInitToStep]
    by_cases hstop : seen + b.length ≥ len
    · exact ⟨_, by rw [if_pos hstop]⟩
    · rw [sumLens_cons] at hlen
      have hne : rest ≠ [] := by
        intro he
        subst he
        rw [sumLens_nil] at hlen
        omega
      obtain ⟨r, hr⟩ := ih (seen + b.length) init len hne (by omega)
      obtain ⟨c1, s1, rest1⟩ := r
      exact ⟨_, by rw [if_neg hstop, hr]⟩

theorem asInitToStep_none :
    ∀ (bs : List (List (Option Nat))) (seen init len : Nat),
      seen + sumLens bs < len → asInitToStep bs seen init len = none := by
  intro bs
  induction bs with
  | nil => intro seen init len _; rfl
  | cons b rest ih =>
    intro seen init len hlt
    rw [sumLens_cons] at hlt
    simp only [asInitToStep]
    rw [if_neg (by omega), ih (seen + b.length) init len (by omega)]

/-! Characterization of the as_slices split scan of ReadBufs. -/

theorem splitPos_spec :
    ∀ (bs : List (List (Option Nat))) (rem : Nat), rem ≤ sumLens bs →
      ∃ k, splitPos bs rem = some k ∧ k ≤ bs.length ∧ sumLens (bs.take k) ≤ rem := by
  intro bs
  induction bs with
  | nil =>
    intro rem hrem
    rw [sumLens_nil] at hrem
    have h0 : rem = 0 := by omega
    subst h0
    exact ⟨0, rfl, by simp, by simp [sumLens_nil]⟩
  | cons b rest ih =>
    intro rem hrem
    simp only [splitPos]
    by_cases hr : rem < b.length
    · exact ⟨0, by rw [if_pos hr], by simp, by simp [sumLens_nil]⟩
    · rw [sumLens_cons] at hrem
      obtain ⟨k, h1, h2, h3⟩ := ih (rem - b.length) (by omega)
      refine ⟨k + 1, ?_, by simpa using h2, ?_⟩
      · rw [if_neg hr, h1]
      · rw [List.take_succ_cons, sumLens_cons]
        omega
example :
    (ReadBuf.new_uninit (List.replicate 10 none)).as_init_to 5 =
      some (List.replicate 5 (some 0), ⟨List.replicate 5 (some 0) ++ List.replicate 5 none, 5⟩) := by
  decide
example :
    (ReadBufs.new_uninit [List.replicate 5 none, [], List.replicate 3 none]).as_init_to 1 =
      some ([List.replicate 5 (some 0)],
        ⟨[List.replicate 5 (some 0), [], List.replicate 3 none], 5⟩) := by
  decide
example :
    (ReadBufs.new [[1, 1, 1, 1, 1], [], [3, 3, 3]]).as_slices =
      some ([[1, 1, 1, 1, 1], [], [3, 3, 3]], []) := by
  decide

/-! Unfolding lemmas for ReadBuf.as_init and the default read_buf. -/

/-- The buffer contents after ReadBuf.as_init: the whole region with the
bytes from the cursor on zero-filled. -/
def asInitBuf (b : ReadBuf) : List (Option Nat) :=
  if b.buf.length > b.initialized then zeroRange b.buf b.initialized b.buf.length
  else b.buf

theorem asInitBuf_length (b : ReadBuf) : (asInitBuf b).length = b.buf.length := by
  unfold asInitBuf
  split
  · exact zeroRange_length _ _ _ (by omega) le_rfl
  · rfl

theorem as_init_spec (b : ReadBuf) :
    b.as_init = (asInitBuf b, ⟨asInitBuf b, max b.initialized b.buf.length⟩) := by
  have hlen : (asInitBuf b).length = b.buf.length := asInitBuf_length b
  unfold ReadBuf.as_init ReadBuf.as_init_to
  rw [if_neg (by omega)]
  simp only [Option.getD_some]
  rw [show (if b.buf.length > b.initialized then zeroRange b.buf b.initialized b.buf.length
      else b.buf) = asInitBuf b from rfl]
  rw [← hlen, List.take_length]

theorem asInitBuf_getElem?_lt (b : ReadBuf) (i : Nat) (_hwf : b.initialized ≤ b.buf.length)
    (hi : i < b.initialized) : (asInitBuf b)[i]? = b.buf[i]? := by
  unfold asInitBuf
  split
  · exact zeroRange_getElem?_lt _ _ _ _ hi (by omega) le_rfl
  · rfl

theorem asInitBuf_getElem?_ge (b : ReadBuf) (i : Nat) (hwf : b.initialized ≤ b.buf.length)
    (hlo : b.initialized ≤ i) (hi : i < b.buf.length) :
    (asInitBuf b)[i]? = some (some 0) := by
  unfold asInitBuf
  split
  · exact zeroRange_getElem?_mid _ _ _ _ hlo hi le_rfl
  · omega

theorem asInitBuf_all_some (b : ReadBuf) (hwf : b.initialized ≤ b.buf.length)
    (h : ∀ i, i < b.initialized → ∃ x, b.buf[i]? = some (some x)) :
    ∀ i, i < b.buf.length → ∃ x, (asInitBuf b)[i]? = some (some x) := by
  intro i hi
  by_cases hlt : i < b.initialized
  · obtain ⟨x, hx⟩ := h i hlt
    exact ⟨x, by rw [asInitBuf_getElem?_lt b i hwf hlt, hx]⟩
  · exact ⟨0, asInitBuf_getElem?_ge b i hwf (by omega) hi⟩

theorem read_buf_default_nil (b : ReadBuf) :
    read_buf_default [] b =
      ([], .ok 0, ⟨(initView (asInitBuf b)).map some, max b.initialized b.buf.length⟩) := by
  unfold read_buf_default readRaw
  rw [as_init_spec]

theorem read_buf_default_ioerr (e : Nat) (rest : Source) (b : ReadBuf) :
    read_buf_default (.ioerr e :: rest) b =
      (rest, .error (.os e), ⟨asInitBuf b, max b.initialized b.buf.length⟩) := by
  unfold read_buf_default readRaw
  rw [as_init_spec]

theorem read_buf_default_chunk (c : List Nat) (rest : Source) (b : ReadBuf) :
    read_buf_default (.chunk c :: rest) b =
      (rest, .ok (min c.length b.buf.length),
        ⟨(c.take (min c.length b.buf.length) ++
            (initView (asInitBuf b)).drop (min c.length b.buf.length)).map some,
          max b.initialized b.buf.length⟩) := by
  simp only [read_buf_default, readRaw, as_init_spec, initView_length, asInitBuf_length]

theorem read_buf_default_length (src : Source) (b : ReadBuf) :
    ((read_buf_default src b).2.2).buf.length = b.buf.length := by
  match src with
  | [] =>
    rw [read_buf_default_nil]
    simp [initView_length, asInitBuf_length]
  | .ioerr e :: rest =>
    rw [read_buf_default_ioerr]
    simp [asInitBuf_length]
  | .chunk c :: rest =>
    rw [read_buf_default_chunk]
    simp [initView_length, asInitBuf_length]

theorem read_buf_default_initialized (src : Source) (b : ReadBuf) :
    ((read_buf_default src b).2.2).initialized = max b.initialized b.buf.length := by
  match src with
  | [] => rw [read_buf_default_nil]
  | .ioerr e :: rest => rw [read_buf_default_ioerr]
  | .chunk c :: rest => rw [read_buf_default_chunk]

/-! Claim theorems. -/

/-- C1 (code_bug evidence): evaluating ReadBufs.as_init_to at a concrete
failing input.  One 5-byte slice whose first 3 bytes hold the value 7 with
the cursor at 3; as_init_to 4 re-zeroes the already-initialized bytes at
cumulative positions 0, 1 and 2 (the per-slice zero-fill starts at
initialized - len = 0 instead of at the cursor offset within the slice),
so the initialized prefix content is destroyed, contradicting the claim
that bytes before the initialized cursor are left unchanged. -/
theorem c1_readbufs_as_init_to_rezeroes_initialized_prefix :
    ((ReadBufs.new_uninit [[some 7, some 7, some 7, none, none]]).assume_initialized
        3).as_init_to 4 =
      some ([List.replicate 5 (some 0)], ⟨[List.replicate 5 (some 0)], 5⟩) := by
  decide

/-- C2 (counterexample): the claim quantifies over every ReadBufs and every
len not exceeding the total capacity, but for a ReadBufs over an empty
slice sequence and len 0 (0 is not larger than the capacity 0) as_init_to
panics (models to none) instead of returning slices. -/
theorem c2_counterexample_empty_bufs :
    (ReadBufs.new_uninit []).as_init_to 0 = none ∧
      0 ≤ sumLens (ReadBufs.new_uninit []).bufs := by
  constructor
  · rfl
  · decide

/-- C2 (amended: the slice sequence is non-empty): for every ReadBufs with
at least one slice and every len at most the total capacity, as_init_to
returns exactly the slices up to and including the first one whose
cumulative end reaches or exceeds len (covering at least len bytes, never
fewer), and raises the cursor to the cumulative length covered; on three
uninitialized regions of lengths 5, 0, 3, as_init_to 1 returns one region
and raises the cursor to 5; and it panics (none) whenever len exceeds the
total capacity. -/
theorem c2_as_init_to_rounds_up_to_slice_boundary :
    (∀ (r : ReadBufs) (len : Nat), r.bufs ≠ [] → len ≤ sumLens r.bufs →
      ∃ k bufs2,
        r.as_init_to len =
          some (bufs2.take (k + 1),
            ⟨bufs2, max r.initialized (sumLens (r.bufs.take (k + 1)))⟩) ∧
        k < r.bufs.length ∧
        bufs2.map List.length = r.bufs.map List.length ∧
        len ≤ sumLens (r.bufs.take (k + 1)) ∧
        (∀ j, j < k → sumLens (r.bufs.take (j + 1)) < len)) ∧
    (∀ (r : ReadBufs) (len : Nat), sumLens r.bufs < len → r.as_init_to len = none) ∧
    ((ReadBufs.new_uninit
        [List.replicate 5 none, [], List.replicate 3 none]).as_init_to 1 =
      some ([List.replicate 5 (some 0)],
        ⟨[List.replicate 5 (some 0), [], List.replicate 3 none], 5⟩)) := by
  refine ⟨?_, ?_, by decide⟩
  · intro r len hne hlen
    obtain ⟨out, hout⟩ := asInitToStep_isSome r.bufs 0 r.initialized len hne (by omega)
    obtain ⟨c, s, bufs2⟩ := out
    obtain ⟨h1, h2, h3, h4, h5⟩ := asInitToStep_spec r.bufs 0 r.initialized len c s bufs2 hout
    refine ⟨c, bufs2, ?_, h1, h3, by omega, fun j hj => by have := h5 j hj; omega⟩
    unfold ReadBufs.as_init_to
    rw [hout]
    have hs : s = sumLens (r.bufs.take (c + 1)) := by omega
    rw [hs]
  · intro r len hlt
    unfold ReadBufs.as_init_to
    rw [asInitToStep_none r.bufs 0 r.initialized len (by omega)]

/-- C2 witness: the amended theorem applied at a concrete input (two slices
of lengths 2 and 3, len 4). -/
theorem c2_witness :
    ∃ k bufs2,
      (ReadBufs.new_uninit [[none, none], [none, none, none]]).as_init_to 4 =
        some (bufs2.take (k + 1),
          ⟨bufs2,
            max (ReadBufs.new_uninit [[none, none], [none, none, none]]).initialized
              (sumLens
                ((ReadBufs.new_uninit [[none, none], [none, none, none]]).bufs.take
                  (k + 1)))⟩) ∧
      k < (ReadBufs.new_uninit [[none, none], [none, none, none]]).bufs.length ∧
      bufs2.map List.length =
        (ReadBufs.new_uninit [[none, none], [none, none, none]]).bufs.map List.length ∧
      4 ≤ sumLens
          ((ReadBufs.new_uninit [[none, none], [none, none, none]]).bufs.take (k + 1)) ∧
      (∀ j, j < k →
        sumLens
          ((ReadBufs.new_uninit [[none, none], [none, none, none]]).bufs.take (j + 1)) < 4) :=
  c2_as_init_to_rounds_up_to_slice_boundary.1
    (ReadBufs.new_uninit [[none, none], [none, none, none]]) 4 (by decide) (by decide)

/-- C10: for a ReadBufs built over an empty slice sequence, as_init_to 0
panics (none) even though 0 does not exceed the total capacity, while for
any non-empty sequence as_init_to 0 returns exactly the first slice
(zero-filled) and raises the cursor to the length of that slice. -/
theorem c10_as_init_to_zero_len :
    ((ReadBufs.new_uninit []).as_init_to 0 = none) ∧
    (∀ (b : List (Option Nat)) (bs : List (List (Option Nat))),
      (ReadBufs.new_uninit (b :: bs)).as_init_to 0 =
        some ([List.replicate b.length (some 0)],
          ⟨List.replicate b.length (some 0) :: bs, b.length⟩)) := by
  constructor
  · rfl
  · intro b bs
    rcases b with _ | ⟨x, t⟩ <;>
      simp [ReadBufs.new_uninit, ReadBufs.as_init_to, asInitToStep, zeroFrom]

/-- C6: for every ReadBufs whose cursor does not exceed the total capacity,
as_slices splits the slice sequence at an index k into fully-initialized
leading slices and the remaining slices; the cumulative end of every slice
of the initialized half is at most the cursor (no slice is returned
half-initialized), and any slice strictly containing the cursor lies in
the uninitialized half. -/
theorem c6_as_slices_never_splits_a_slice :
    ∀ r : ReadBufs, r.wf →
      ∃ k, r.as_slices = some ((r.bufs.take k).map initView, r.bufs.drop k) ∧
        sumLens (r.bufs.take k) ≤ r.initialized ∧
        (∀ j, j + 1 ≤ k → sumLens (r.bufs.take (j + 1)) ≤ r.initialized) ∧
        (∀ j, sumLens (r.bufs.take j) < r.initialized →
          r.initialized < sumLens (r.bufs.take (j + 1)) → k ≤ j) := by
  intro r hwf
  obtain ⟨k, h1, h2, h3⟩ := splitPos_spec r.bufs r.initialized hwf
  refine ⟨k, ?_, h3, ?_, ?_⟩
  · unfold ReadBufs.as_slices
    rw [h1]
  · intro j hj
    exact le_trans (sumLens_take_mono r.bufs hj) h3
  · intro j hlt hgt
    by_contra hc
    have hjk : j + 1 ≤ k := by omega
    have h4 : sumLens (r.bufs.take (j + 1)) ≤ sumLens (r.bufs.take k) :=
      sumLens_take_mono r.bufs hjk
    omega

/-- C6 witness: the theorem applied to the concrete three-region buffer of
lengths 5, 0 and 3 with the cursor at 5. -/
theorem c6_witness :
    ∃ k, ((ReadBufs.new_uninit
          [List.replicate 5 none, [], List.replicate 3 none]).assume_initialized
            5).as_slices =
        some (((((ReadBufs.new_uninit
          [List.replicate 5 none, [], List.replicate 3 none]).assume_initialized
            5)).bufs.take k).map initView,
          (((ReadBufs.new_uninit
          [List.replicate 5 none, [], List.replicate 3 none]).assume_initialized
            5)).bufs.drop k) ∧
      sumLens ((((ReadBufs.new_uninit
          [List.replicate 5 none, [], List.replicate 3 none]).assume_initialized
            5)).bufs.take k) ≤ 5 ∧
      (∀ j, j + 1 ≤ k → sumLens ((((ReadBufs.new_uninit
          [List.replicate 5 none, [], List.replicate 3 none]).assume_initialized
            5)).bufs.take (j + 1)) ≤ 5) ∧
      (∀ j, sumLens ((((ReadBufs.new_uninit
          [List.replicate 5 none, [], List.replicate 3 none]).assume_initialized
            5)).bufs.take j) < 5 →
        5 < sumLens ((((ReadBufs.new_uninit
          [List.replicate 5 none, [], List.replicate 3 none]).assume_initialized
            5)).bufs.take (j + 1)) → k ≤ j) :=
  c6_as_slices_never_splits_a_slice
    ((ReadBufs.new_uninit
      [List.replicate 5 none, [], List.replicate 3 none]).assume_initialized 5)
    (by decide)

/-- C7: the TcpStream override of read_buf.  On a negative system result
the OS error is surfaced unchanged and the whole buffer, in particular its
initialized count, is untouched; on a nonnegative count n (the bytes the
system wrote, which fit in the region) the buffer content gains those n
bytes, the cursor becomes the maximum of its old value and n, and Ok n is
returned. -/
theorem c7_tcp_read_buf_error_and_success :
    (∀ (e : Nat) (b : ReadBuf), tcp_read_buf (.err e) b = (b, .error (.os e))) ∧
    (∀ (data : List Nat) (b : ReadBuf), data.length ≤ b.buf.length →
      tcp_read_buf (.ok data) b =
        (⟨data.map some ++ b.buf.drop data.length,
            max b.initialized data.length⟩, .ok data.length)) := by
  constructor
  · intro e b
    rfl
  · intro data b h
    simp only [tcp_read_buf]
    rw [Nat.min_eq_left h]
    simp [ReadBuf.assume_initialized, List.take_of_length_le (le_refl data.length)]

/-- C7 witness: the theorem applied at concrete inputs: a failed system
read leaves the buffer alone, a successful 2-byte system read into a
3-byte buffer initializes exactly 2 bytes. -/
theorem c7_witness :
    (tcp_read_buf (.err 11) (ReadBuf.new_uninit [none, none, none]) =
      (ReadBuf.new_uninit [none, none, none], .error (.os 11))) ∧
    (tcp_read_buf (.ok [5, 6]) (ReadBuf.new_uninit [none, none, none]) =
      (⟨[some 5, some 6, none], max 0 2⟩, .ok 2)) := by
  constructor
  · exact c7_tcp_read_buf_error_and_success.1 11 (ReadBuf.new_uninit [none, none, none])
  · have h := c7_tcp_read_buf_error_and_success.2 [5, 6]
      (ReadBuf.new_uninit [none, none, none]) (by decide)
    simpa using h

/-- C8: the invariant that the initialized cursor lies between 0 and the
total length holds after construction and is preserved by every mutating
operation (under the stated preconditions of the unsafe operations), and
the cursor never decreases: assume_initialized with an argument at most
the current cursor is the identity, new sets the cursor to the full
length, new_uninit to 0, and as_init_to and as_init only raise it. -/
theorem c8_cursor_invariant_and_monotonicity :
    (∀ l : List Nat, (ReadBuf.new l).wf ∧ (ReadBuf.new l).initialized = l.length) ∧
    (∀ l : List (Option Nat),
      (ReadBuf.new_uninit l).wf ∧ (ReadBuf.new_uninit l).initialized = 0) ∧
    (∀ (b : ReadBuf) (n : Nat), b.wf → n ≤ b.buf.length → (b.assume_initialized n).wf) ∧
    (∀ (b : ReadBuf) (n : Nat), b.initialized ≤ (b.assume_initialized n).initialized) ∧
    (∀ (b : ReadBuf) (n : Nat), n ≤ b.initialized → b.assume_initialized n = b) ∧
    (∀ (b : ReadBuf) (len : Nat) (out : List (Option Nat) × ReadBuf), b.wf →
      b.as_init_to len = some out → out.2.wf ∧ b.initialized ≤ out.2.initialized) ∧
    (∀ b : ReadBuf, b.wf → (b.as_init).2.wf ∧ b.initialized ≤ (b.as_init).2.initialized) ∧
    (∀ bufs : List (List Nat),
      (ReadBufs.new bufs).wf ∧
        (ReadBufs.new bufs).initialized = sumLens (ReadBufs.new bufs).bufs) ∧
    (∀ bufs : List (List (Option Nat)),
      (ReadBufs.new_uninit bufs).wf ∧ (ReadBufs.new_uninit bufs).initialized = 0) ∧
    (∀ (r : ReadBufs) (n : Nat), r.wf → n ≤ sumLens r.bufs → (r.assume_initialized n).wf) ∧
    (∀ (r : ReadBufs) (n : Nat), r.initialized ≤ (r.assume_initialized n).initialized) ∧
    (∀ (r : ReadBufs) (n : Nat), n ≤ r.initialized → r.assume_initialized n = r) ∧
    (∀ (r : ReadBufs) (len : Nat) (out : List (List (Option Nat)) × ReadBufs), r.wf →
      r.as_init_to len = some out → out.2.wf ∧ r.initialized ≤ out.2.initialized) := by
  refine ⟨?_, ?_, ?_, ?_, ?_, ?_, ?_, ?_, ?_, ?_, ?_, ?_, ?_⟩
  · intro l
    constructor
    · simp [ReadBuf.new, ReadBuf.wf]
    · rfl
  · intro l
    constructor
    · simp [ReadBuf.new_uninit, ReadBuf.wf]
    · rfl
  · intro b n hwf hn
    simp only [ReadBuf.assume_initialized, ReadBuf.wf] at hwf ⊢
    omega
  · intro b n
    exact Nat.le_max_left _ _
  · intro b n h
    simp [ReadBuf.assume_initialized, Nat.max_eq_left h]
  · intro b len out hwf h
    simp only [ReadBuf.as_init_to] at h
    by_cases hg : len > b.buf.length
    · rw [if_pos hg] at h
      exact absurd h (by simp)
    · rw [if_neg hg] at h
      by_cases hz : len > b.initialized
      · rw [if_pos hz] at h
        simp only [Option.some.injEq] at h
        subst h
        have hl : (zeroRange b.buf b.initialized len).length = b.buf.length :=
          zeroRange_length _ _ _ (by omega) (by omega)
        constructor
        · show max b.initialized len ≤ (zeroRange b.buf b.initialized len).length
          rw [hl]
          simp only [ReadBuf.wf] at hwf
          omega
        · exact Nat.le_max_left _ _
      · rw [if_neg hz] at h
        simp only [Option.some.injEq] at h
        subst h
        constructor
        · show max b.initialized len ≤ b.buf.length
          simp only [ReadBuf.wf] at hwf
          omega
        · exact Nat.le_max_left _ _
  · intro b hwf
    rw [as_init_spec]
    constructor
    · show max b.initialized b.buf.length ≤ (asInitBuf b).length
      rw [asInitBuf_length]
      simp only [ReadBuf.wf] at hwf
      omega
    · exact Nat.le_max_left _ _
  · intro bufs
    have h : sumLens (bufs.map fun l => l.map some) = (bufs.map List.length).sum := by
      simp [sumLens, List.map_map, Function.comp_def]
    constructor
    · show (bufs.map List.length).sum ≤ sumLens (bufs.map fun l => l.map some)
      omega
    · show (bufs.map List.length).sum = sumLens (bufs.map fun l => l.map some)
      omega
  · intro bufs
    constructor
    · simp [ReadBufs.new_uninit, ReadBufs.wf]
    · rfl
  · intro r n hwf hn
    simp only [ReadBufs.assume_initialized, ReadBufs.wf] at hwf ⊢
    omega
  · intro r n
    exact Nat.le_max_left _ _
  · intro r n h
    simp [ReadBufs.assume_initialized, Nat.max_eq_left h]
  · intro r len out hwf h
    simp only [ReadBufs.as_init_to] at h
    cases hstep : asInitToStep r.bufs 0 r.initialized len with
    | none =>
      rw [hstep] at h
      simp at h
    | some t =>
      obtain ⟨c, s, bufs2⟩ := t
      rw [hstep] at h
      simp only [Option.some.injEq] at h
      subst h
      obtain ⟨h1, h2, h3, h4, h5⟩ :=
        asInitToStep_spec r.bufs 0 r.initialized len c s bufs2 hstep
      have hs1 : s ≤ sumLens r.bufs := by
        have := sumLens_take_le r.bufs (c + 1)
        omega
      have hs2 : sumLens bufs2 = sumLens r.bufs := sumLens_map_length_eq h3
      constructor
      · show max r.initialized s ≤ sumLens bufs2
        simp only [ReadBufs.wf] at hwf
        omega
      · exact Nat.le_max_left _ _

/-- C8 witness: the theorem applied at concrete inputs, discharging every
precondition: a 2-byte buffer raised to cursor 2, an assume_initialized
no-op, an as_init_to success, an as_init success, and the vectored
counterparts. -/
theorem c8_witness :
    (((ReadBuf.new_uninit [none, none]).assume_initialized 2).wf) ∧
    ((ReadBuf.new [3, 4]).assume_initialized 1 = ReadBuf.new [3, 4]) ∧
    ((ReadBuf.new_uninit [none, none]).as_init_to 1 =
        some ([some 0], ⟨[some 0, none], 1⟩) →
      ((ReadBuf.new_uninit [none, none]).as_init_to 1 =
          some ([some 0], ⟨[some 0, none], 1⟩)) ∧
        (⟨[some 0, none], 1⟩ : ReadBuf).wf) ∧
    (((ReadBuf.new_uninit [none]).as_init).2.wf) ∧
    (((ReadBufs.new_uninit [[none], [none, none]]).assume_initialized 3).wf) ∧
    ((ReadBufs.new [[8]]).assume_initialized 1 = ReadBufs.new [[8]]) ∧
    ((⟨[[some 0], [none, none]], 1⟩ : ReadBufs).wf) := by
  obtain ⟨h1, h2, h3, h4, h5, h6, h7, h8, h9, h10, h11, h12, h13⟩ :=
    c8_cursor_invariant_and_monotonicity
  refine ⟨?_, ?_, ?_, ?_, ?_, ?_, ?_⟩
  · exact h3 (ReadBuf.new_uninit [none, none]) 2 (by decide) (by decide)
  · exact h5 (ReadBuf.new [3, 4]) 1 (by decide)
  · intro he
    exact ⟨he, (h6 (ReadBuf.new_uninit [none, none]) 1
      ([some 0], ⟨[some 0, none], 1⟩) (by decide) he).1⟩
  · exact (h7 (ReadBuf.new_uninit [none]) (by decide)).1
  · exact h10 (ReadBufs.new_uninit [[none], [none, none]]) 3 (by decide) (by decide)
  · exact h12 (ReadBufs.new [[8]]) 1 (by decide)
  · exact (h13 (ReadBufs.new_uninit [[none], [none, none]]) 1
      ([[some 0]], ⟨[[some 0], [none, none]], 1⟩) (by decide) (by decide)).1

theorem initView_asInitBuf_getElem?_ge (b : ReadBuf) (i : Nat)
    (hwf : b.initialized ≤ b.buf.length) (hlo : b.initialized ≤ i)
    (hi : i < b.buf.length) : (initView (asInitBuf b))[i]? = some 0 := by
  rw [initView_getElem?, asInitBuf_getElem?_ge b i hwf hlo hi]
  rfl

theorem map_some_all_some (w : List Nat) (i : Nat) (hi : i < w.length) :
    ∃ x, (w.map some)[i]? = some (some x) := by
  refine ⟨w.get ⟨i, hi⟩, ?_⟩
  rw [List.getElem?_map, List.getElem?_eq_getElem hi]
  rfl

/-- C9: the default Read2.read_buf implementation calls as_init before the
underlying read is attempted, so after the call -- whether the outcome is
Ok or Err -- the buffer is fully initialized: the cursor equals the region
length, every byte is initialized, and every byte at or beyond the old
cursor that the read did not overwrite with data is zero (on an error, all
bytes from the old cursor on are zero). -/
theorem c9_default_read_buf_initializes_even_on_error :
    ∀ (src : Source) (b : ReadBuf), b.wf →
      (∀ i, i < b.initialized → ∃ x, b.buf[i]? = some (some x)) →
      ((read_buf_default src b).2.2.initialized = b.buf.length ∧
       (read_buf_default src b).2.2.buf.length = b.buf.length ∧
       (∀ i, i < b.buf.length → ∃ x, (read_buf_default src b).2.2.buf[i]? = some (some x)) ∧
       (∀ e, (read_buf_default src b).2.1 = .error e →
         ∀ i, b.initialized ≤ i → i < b.buf.length →
           (read_buf_default src b).2.2.buf[i]? = some (some 0)) ∧
       (∀ n, (read_buf_default src b).2.1 = .ok n →
         ∀ i, b.initialized ≤ i → n ≤ i → i < b.buf.length →
           (read_buf_default src b).2.2.buf[i]? = some (some 0))) := by
  intro src b hwf hinit
  have hwf2 : b.initialized ≤ b.buf.length := hwf
  match src with
  | [] =>
    simp only [read_buf_default_nil]
    refine ⟨by omega, ?_, ?_, ?_, ?_⟩
    · simp [initView_length, asInitBuf_length]
    · intro i hi
      exact map_some_all_some _ i (by simp [initView_length, asInitBuf_length]; omega)
    · intro e he
      simp at he
    · intro n hn i hlo _hn2 hi
      rw [List.getElem?_map, initView_asInitBuf_getElem?_ge b i hwf2 hlo hi]
      rfl
  | .ioerr e0 :: rest =>
    simp only [read_buf_default_ioerr]
    refine ⟨by omega, by simp [asInitBuf_length], ?_, ?_, ?_⟩
    · intro i hi
      exact asInitBuf_all_some b hwf2 hinit i hi
    · intro e he i hlo hi
      exact asInitBuf_getElem?_ge b i hwf2 hlo hi
    · intro n hn
      simp at hn
  | .chunk c :: rest =>
    have hn0 : min c.length b.buf.length ≤ c.length := Nat.min_le_left _ _
    have hn1 : min c.length b.buf.length ≤ b.buf.length := Nat.min_le_right _ _
    have htk : (c.take (min c.length b.buf.length)).length = min c.length b.buf.length := by
      simp
    have hlenw : (c.take (min c.length b.buf.length) ++
        (initView (asInitBuf b)).drop (min c.length b.buf.length)).length = b.buf.length := by
      simp [initView_length, asInitBuf_length]
    simp only [read_buf_default_chunk]
    refine ⟨by omega, by simpa using hlenw, ?_, ?_, ?_⟩
    · intro i hi
      exact map_some_all_some _ i (by rw [hlenw]; omega)
    · intro e he
      simp at he
    · intro n hn i hlo hge hi
      simp only [Except.ok.injEq] at hn
      subst hn
      rw [List.getElem?_map,
        List.getElem?_append_right (by omega),
        List.getElem?_drop]
      have harith : min c.length b.buf.length +
          (i - (c.take (min c.length b.buf.length)).length) = i := by omega
      rw [harith, initView_asInitBuf_getElem?_ge b i hwf2 hlo hi]
      rfl

/-- C9 witness: the theorem applied to a concrete 2-byte fully
uninitialized buffer and a failing source: the buffer comes back fully
initialized with its uninitialized bytes zero-filled despite the error. -/
theorem c9_witness :
    ((read_buf_default [SourceItem.ioerr 3] (ReadBuf.new_uninit [none, none])).2.2.initialized =
      (ReadBuf.new_uninit [none, none]).buf.length) ∧
    ((read_buf_default [SourceItem.ioerr 3] (ReadBuf.new_uninit [none, none])).2.2.buf[1]? =
      some (some 0)) := by
  have h := c9_default_read_buf_initializes_even_on_error [SourceItem.ioerr 3]
    (ReadBuf.new_uninit [none, none]) (by decide)
    (fun i hi => absurd hi (Nat.not_lt_zero i))
  exact ⟨h.1, h.2.2.2.1 (.os 3) (by decide) 1 (by decide) (by decide)⟩

/-- C3: read_buf_exact loops reading into the unread tail until the whole
buffer length has been read: whenever the loop returns Ok, the final base
(total bytes read) has reached the buffer length, so a success is never a
silent truncation; and against a source yielding 4 bytes and then end of
stream, requesting 10 bytes, it reports the distinct UnexpectedEof error
after accumulating exactly 4 bytes (final base 4, the 4 data bytes at the
start of the buffer). -/
theorem c3_read_buf_exact_premature_eof :
    (∀ (fuel : Nat) (src : Source) (b : ReadBuf) (base : Nat),
      match read_buf_exact_loop fuel src b base with
      | some (_, _, bf, .ok _) => b.buf.length ≤ bf
      | _ => True) ∧
    (read_buf_exact [SourceItem.chunk [9, 9, 9, 9]]
        (ReadBuf.new_uninit (List.replicate 10 none)) =
      some ([], ⟨List.map some ([9, 9, 9, 9] ++ List.replicate 6 0), 10⟩, 4,
        .error .unexpectedEof)) := by
  constructor
  · intro fuel
    induction fuel with
    | zero =>
      intro src b base
      simp [read_buf_exact_loop]
    | succ fuel ih =>
      intro src b base
      simp only [read_buf_exact_loop]
      split
      · rename_i heq
        split at heq
        · rename_i hcond
          simp only [Option.some.injEq, Prod.mk.injEq] at heq
          omega
        · split at heq
          · simp at heq
          · rename_i hcond1 hcond2
            split at heq
            · simp at heq
            · rename_i src2 n temp2 hread
              split at heq
              · simp at heq
              · rename_i hn0
                have ihx := ih src2
                  ⟨b.buf.take base ++ temp2.buf,
                    max b.initialized (base + temp2.initialized)⟩ (base + n)
                rw [heq] at ihx
                have h4 : (b.buf.take base ++ temp2.buf).length ≤ _ := ihx
                have hlen2 : temp2.buf.length = b.buf.length - base := by
                  have hx := read_buf_default_length src
                    ((ReadBuf.new_uninit (b.buf.drop base)).assume_initialized
                      (b.initialized - base))
                  rw [hread] at hx
                  simpa [ReadBuf.new_uninit, ReadBuf.assume_initialized] using hx
                have h5 : (b.buf.take base ++ temp2.buf).length = b.buf.length := by
                  simp [hlen2]
                  omega
                omega
      · exact trivial
  · decide

theorem as_slices_map_some_full (w : List Nat) (k : Nat) (hk : k = w.length) :
    (⟨w.map some, k⟩ : ReadBuf).as_slices = some (w, []) := by
  subst hk
  unfold ReadBuf.as_slices
  rw [if_pos (by simp)]
  have h1 : (w.map some).take w.length = w.map some :=
    List.take_of_length_le (by simp)
  have h2 : (w.map some).drop w.length = [] :=
    List.drop_eq_nil_of_le (by simp)
  simp only [h1, h2]
  rw [initView_map_some]

theorem copy_loop_chunks :
    ∀ (chunks : List (List Nat)) (fuel : Nat) (b : ReadBuf) (len : Nat)
      (ws : List (List Nat)),
      chunks.length < fuel →
      b.buf.length = 4096 →
      b.initialized ≤ 4096 →
      (∀ c ∈ chunks, c ≠ [] ∧ c.length ≤ 4096) →
      copy_loop fuel (chunks.map .chunk) b len ws =
        some (.ok (len + (chunks.map List.length).sum, ws ++ chunks)) := by
  intro chunks
  induction chunks with
  | nil =>
    intro fuel b len ws hfuel hblen hbinit _
    obtain ⟨f, rfl⟩ : ∃ f, fuel = f + 1 := ⟨fuel - 1, by omega⟩
    simp only [List.map_nil, copy_loop, read_buf_default_nil]
    simp
  | cons c cs ih =>
    intro fuel b len ws hfuel hblen hbinit hc
    obtain ⟨f, rfl⟩ : ∃ f, fuel = f + 1 := ⟨fuel - 1, by omega⟩
    have hc0 : c ≠ [] := (hc c (by simp)).1
    have hc1 : c.length ≤ 4096 := (hc c (by simp)).2
    have hclen : c.length ≠ 0 := by
      intro h0
      exact hc0 (List.length_eq_zero.mp h0)
    have hmin : min c.length b.buf.length = c.length := by
      rw [hblen]
      omega
    have hmax : max b.initialized b.buf.length = 4096 := by
      rw [hblen]
      omega
    have hwlen : (c ++ (initView (asInitBuf b)).drop c.length).length = 4096 := by
      simp [initView_length, asInitBuf_length, hblen]
      omega
    simp only [List.map_cons, copy_loop, read_buf_default_chunk, hmin, hmax,
      List.take_length, if_neg hclen,
      as_slices_map_some_full _ 4096 hwlen.symm]
    rw [List.take_left' rfl]
    rw [ih f ⟨(c ++ (initView (asInitBuf b)).drop c.length).map some, 4096⟩
      (len + c.length) (ws ++ [c]) (by simpa using hfuel)
      (by simpa using hwlen) (le_refl 4096) (fun c2 hc2 => hc c2 (by simp [hc2]))]
    simp [Nat.add_assoc]

/-- C4: copy loops reading into its 4096-byte buffer with the default
read_buf; a 0-byte read ends the loop returning the cumulative count, and
every read of n > 0 bytes appends exactly those n newly-read bytes as one
write to the sink: for any script of nonempty chunks fitting the buffer,
copy returns the total of the chunk lengths and the writes are exactly the
chunks; in particular for chunks of 4096, 4096 and then end of stream it
returns 8192 in exactly two writes forwarding exactly those bytes. -/
theorem c4_copy_totals_and_writes :
    (∀ chunks : List (List Nat), (∀ c ∈ chunks, c ≠ [] ∧ c.length ≤ 4096) →
      copy (chunks.map .chunk) =
        some (.ok ((chunks.map List.length).sum, chunks))) ∧
    (copy [.chunk (List.replicate 4096 1), .chunk (List.replicate 4096 2)] =
      some (.ok (8192, [List.replicate 4096 1, List.replicate 4096 2]))) := by
  have hgen : ∀ chunks : List (List Nat), (∀ c ∈ chunks, c ≠ [] ∧ c.length ≤ 4096) →
      copy (chunks.map .chunk) =
        some (.ok ((chunks.map List.length).sum, chunks)) := by
    intro chunks hc
    unfold copy
    rw [copy_loop_chunks chunks ((chunks.map SourceItem.chunk).length + 1)
      (ReadBuf.new_uninit (List.replicate 4096 none)) 0 [] (by simp)
      (List.length_replicate 4096 none) (Nat.zero_le 4096) hc]
    simp
  constructor
  · exact hgen
  · have hrep1 : (List.replicate 4096 (1 : Nat)) ≠ [] := by
      have hl : (List.replicate 4096 (1 : Nat)).length = 4096 :=
        List.length_replicate _ _
      intro h0
      rw [h0] at hl
      simp at hl
    have hrep2 : (List.replicate 4096 (2 : Nat)) ≠ [] := by
      have hl : (List.replicate 4096 (2 : Nat)).length = 4096 :=
        List.length_replicate _ _
      intro h0
      rw [h0] at hl
      simp at hl
    have h := hgen [List.replicate 4096 1, List.replicate 4096 2] ?side
    case side =>
      intro c hcm
      rcases List.mem_cons.mp hcm with h1 | h1
      · subst h1
        exact ⟨hrep1, le_of_eq (List.length_replicate _ _)⟩
      · rcases List.mem_cons.mp h1 with h2 | h2
        · subst h2
          exact ⟨hrep2, le_of_eq (List.length_replicate _ _)⟩
        · exact absurd h2 (List.not_mem_nil c)
    have hmapsum :
        (([List.replicate 4096 (1 : Nat), List.replicate 4096 2]).map List.length).sum =
          8192 := by
      rw [List.map_cons, List.map_cons, List.map_nil,
        List.length_replicate, List.length_replicate]
      rfl
    rw [hmapsum] at h
    rw [List.map_cons, List.map_cons, List.map_nil] at h
    exact h

/-- C4 witness: the theorem applied to a concrete two-chunk script of small
nonempty chunks. -/
theorem c4_witness :
    copy [SourceItem.chunk [7], SourceItem.chunk [8, 9]] =
      some (.ok (3, [[7], [8, 9]])) := by
  have h := c4_copy_totals_and_writes.1 [[7], [8, 9]] (by decide)
  simpa using h

/-! One-iteration unfolding lemmas for the read_to_end2 loop. -/

theorem read_to_end2_loop_ioerr_step (e : Nat) (rest : Source) (fuel : Nat)
    (v : VecModel) (i0 iL : Nat) (w : VecModel)
    (hw : (if v.len = v.capacity then v.reserve32 else v) = w) :
    read_to_end2_loop (fuel + 1) (.ioerr e :: rest) v i0 iL =
      some (rest,
        ⟨w.data.take w.len ++ asInitBuf ⟨w.spare_capacity_mut, i0⟩, w.len⟩,
        .error (.os e)) := by
  subst hw
  simp only [read_to_end2_loop, ReadBuf.new_uninit, ReadBuf.assume_initialized,
    read_buf_default_ioerr, Nat.zero_max]

theorem read_to_end2_loop_nil_step (fuel : Nat) (v : VecModel) (i0 iL : Nat)
    (w : VecModel)
    (hw : (if v.len = v.capacity then v.reserve32 else v) = w)
    (hi0 : i0 ≤ w.spare_capacity_mut.length)
    (hsome : ∀ i, i < i0 → ∃ x, w.spare_capacity_mut[i]? = some (some x)) :
    read_to_end2_loop (fuel + 1) [] v i0 iL =
      some ([],
        ⟨w.data.take w.len ++ asInitBuf ⟨w.spare_capacity_mut, i0⟩, w.len⟩,
        .ok (w.len - iL)) := by
  have hall : ∀ i, i < (⟨w.spare_capacity_mut, i0⟩ : ReadBuf).buf.length →
      ∃ x, (asInitBuf ⟨w.spare_capacity_mut, i0⟩)[i]? = some (some x) :=
    asInitBuf_all_some ⟨w.spare_capacity_mut, i0⟩ hi0 hsome
  have hmap : (initView (asInitBuf ⟨w.spare_capacity_mut, i0⟩)).map some =
      asInitBuf ⟨w.spare_capacity_mut, i0⟩ := by
    apply map_some_initView
    intro i hi
    exact hall i (by rwa [asInitBuf_length] at hi)
  subst hw
  simp only [read_to_end2_loop, ReadBuf.new_uninit, ReadBuf.assume_initialized,
    read_buf_default_nil, Nat.zero_max, hmap, if_true]

theorem read_to_end2_loop_chunk_step (c : List Nat) (rest : Source) (fuel : Nat)
    (v : VecModel) (i0 iL : Nat) (w : VecModel)
    (hw : (if v.len = v.capacity then v.reserve32 else v) = w)
    (hi0 : i0 ≤ w.spare_capacity_mut.length)
    (hL : 0 < w.spare_capacity_mut.length)
    (hc : c ≠ []) :
    read_to_end2_loop (fuel + 1) (.chunk c :: rest) v i0 iL =
      read_to_end2_loop fuel rest
        ⟨w.data.take w.len ++
            (c.take (min c.length w.spare_capacity_mut.length) ++
              (initView (asInitBuf ⟨w.spare_capacity_mut, i0⟩)).drop
                (min c.length w.spare_capacity_mut.length)).map some,
          w.len + min c.length w.spare_capacity_mut.length⟩
        (w.spare_capacity_mut.length - min c.length w.spare_capacity_mut.length) iL := by
  subst hw
  have hcpos : 0 < c.length := List.length_pos.mpr hc
  have hmax : max i0
      (if v.len = v.capacity then v.reserve32 else v).spare_capacity_mut.length =
      (if v.len = v.capacity then v.reserve32 else v).spare_capacity_mut.length := by
    omega
  simp only [read_to_end2_loop, ReadBuf.new_uninit, ReadBuf.assume_initialized,
    read_buf_default_chunk, Nat.zero_max, hmax]
  rw [if_neg (by omega : ¬ min c.length
    (if v.len = v.capacity then v.reserve32 else v).spare_capacity_mut.length = 0)]
  rw [if_neg (by omega : ¬ (if v.len = v.capacity then v.reserve32 else v
    ).spare_capacity_mut.length < min c.length
    (if v.len = v.capacity then v.reserve32 else v).spare_capacity_mut.length)]

/-! Facts about the conditional reserve at the top of each read_to_end2
iteration. -/

theorem reserve_ite_len (v : VecModel) :
    (if v.len = v.capacity then v.reserve32 else v).len = v.len := by
  split <;> rfl

theorem reserve_ite_wf (v : VecModel) (hwf : v.len ≤ v.data.length) :
    (if v.len = v.capacity then v.reserve32 else v).len ≤
      (if v.len = v.capacity then v.reserve32 else v).data.length := by
  split
  · simp only [VecModel.reserve32, List.length_append, List.length_replicate]
    omega
  · exact hwf

theorem reserve_ite_spare_le (v : VecModel) :
    v.spare_capacity_mut.length ≤
      (if v.len = v.capacity then v.reserve32 else v).spare_capacity_mut.length := by
  split
  · simp only [VecModel.spare_capacity_mut, VecModel.reserve32, List.length_drop,
      List.length_append, List.length_replicate]
    omega
  · exact le_rfl

theorem reserve_ite_spare_pos (v : VecModel) (hwf : v.len ≤ v.data.length) :
    0 < (if v.len = v.capacity then v.reserve32 else v).spare_capacity_mut.length := by
  split
  · simp only [VecModel.spare_capacity_mut, VecModel.reserve32, List.length_drop,
      List.length_append, List.length_replicate]
    omega
  · rename_i hfull
    simp only [VecModel.capacity] at hfull
    simp only [VecModel.spare_capacity_mut, List.length_drop]
    omega

theorem reserve_ite_spare_getElem (v : VecModel) (i : Nat)
    (hi : i < v.spare_capacity_mut.length) :
    (if v.len = v.capacity then v.reserve32 else v).spare_capacity_mut[i]? =
      v.spare_capacity_mut[i]? := by
  split
  · rename_i hfull
    exfalso
    simp only [VecModel.capacity] at hfull
    simp only [VecModel.spare_capacity_mut, List.length_drop] at hi
    omega
  · rfl

/-- Invariants of the vector state entering the next read_to_end2
iteration after a successful chunk read. -/
theorem read_to_end2_next_state_invariants (c : List Nat) (w : VecModel) (i0 : Nat)
    (hwwf : w.len ≤ w.data.length) (_hi0 : i0 ≤ w.spare_capacity_mut.length) :
    ((⟨w.data.take w.len ++
        (c.take (min c.length w.spare_capacity_mut.length) ++
          (initView (asInitBuf ⟨w.spare_capacity_mut, i0⟩)).drop
            (min c.length w.spare_capacity_mut.length)).map some,
      w.len + min c.length w.spare_capacity_mut.length⟩ : VecModel).len ≤
        (⟨w.data.take w.len ++
          (c.take (min c.length w.spare_capacity_mut.length) ++
            (initView (asInitBuf ⟨w.spare_capacity_mut, i0⟩)).drop
              (min c.length w.spare_capacity_mut.length)).map some,
        w.len + min c.length w.spare_capacity_mut.length⟩ : VecModel).data.length) ∧
    (w.spare_capacity_mut.length - min c.length w.spare_capacity_mut.length ≤
      (⟨w.data.take w.len ++
          (c.take (min c.length w.spare_capacity_mut.length) ++
            (initView (asInitBuf ⟨w.spare_capacity_mut, i0⟩)).drop
              (min c.length w.spare_capacity_mut.length)).map some,
        w.len + min c.length w.spare_capacity_mut.length⟩ : VecModel
        ).spare_capacity_mut.length) ∧
    (∀ i, i < w.spare_capacity_mut.length - min c.length w.spare_capacity_mut.length →
      ∃ x, (⟨w.data.take w.len ++
          (c.take (min c.length w.spare_capacity_mut.length) ++
            (initView (asInitBuf ⟨w.spare_capacity_mut, i0⟩)).drop
              (min c.length w.spare_capacity_mut.length)).map some,
        w.len + min c.length w.spare_capacity_mut.length⟩ : VecModel
        ).spare_capacity_mut[i]? = some (some x)) := by
  have hiv : (initView (asInitBuf ⟨w.spare_capacity_mut, i0⟩)).length =
      w.spare_capacity_mut.length := by
    rw [initView_length, asInitBuf_length]
  have htake : (w.data.take w.len).length = w.len := by
    simp only [List.length_take]
    omega
  have hXlen : (c.take (min c.length w.spare_capacity_mut.length) ++
      (initView (asInitBuf ⟨w.spare_capacity_mut, i0⟩)).drop
        (min c.length w.spare_capacity_mut.length)).length =
      w.spare_capacity_mut.length := by
    simp only [List.length_append, List.length_take, List.length_drop, hiv]
    omega
  have hdata : (w.data.take w.len ++
      (c.take (min c.length w.spare_capacity_mut.length) ++
        (initView (asInitBuf ⟨w.spare_capacity_mut, i0⟩)).drop
          (min c.length w.spare_capacity_mut.length)).map some).length =
      w.len + w.spare_capacity_mut.length := by
    simp only [List.length_append, List.length_map, htake, hXlen]
  refine ⟨?_, ?_, ?_⟩
  · show w.len + min c.length w.spare_capacity_mut.length ≤
      (w.data.take w.len ++
        (c.take (min c.length w.spare_capacity_mut.length) ++
          (initView (asInitBuf ⟨w.spare_capacity_mut, i0⟩)).drop
            (min c.length w.spare_capacity_mut.length)).map some).length
    rw [hdata]
    omega
  · show w.spare_capacity_mut.length - min c.length w.spare_capacity_mut.length ≤
      ((w.data.take w.len ++
        (c.take (min c.length w.spare_capacity_mut.length) ++
          (initView (asInitBuf ⟨w.spare_capacity_mut, i0⟩)).drop
            (min c.length w.spare_capacity_mut.length)).map some).drop
        (w.len + min c.length w.spare_capacity_mut.length)).length
    rw [List.length_drop, hdata]
    omega
  · intro i hi
    show ∃ x, ((w.data.take w.len ++
        (c.take (min c.length w.spare_capacity_mut.length) ++
          (initView (asInitBuf ⟨w.spare_capacity_mut, i0⟩)).drop
            (min c.length w.spare_capacity_mut.length)).map some).drop
        (w.len + min c.length w.spare_capacity_mut.length))[i]? = some (some x)
    rw [List.getElem?_drop]
    rw [List.getElem?_append_right (by rw [htake]; omega)]
    have harith : w.len + min c.length w.spare_capacity_mut.length + i -
        (w.data.take w.len).length =
        min c.length w.spare_capacity_mut.length + i := by
      rw [htake]
      omega
    rw [harith]
    exact map_some_all_some _ _ (by rw [hXlen]; omega)

/-- Running the read_to_end2 loop over a script of nonempty chunks: the
loop consumes them all and returns Ok with exactly final length minus
initial length, and if the script is followed by an I/O error the loop
stops with that error in the very same vector state (same contents, same
length) it would have had at the clean end of the chunks. -/
theorem read_to_end2_chunks :
    ∀ (chunks : List (List Nat)) (v : VecModel) (i0 iL : Nat),
      (∀ c ∈ chunks, c ≠ []) →
      v.len ≤ v.data.length →
      i0 ≤ v.spare_capacity_mut.length →
      (∀ i, i < i0 → ∃ x, v.spare_capacity_mut[i]? = some (some x)) →
      ∃ vF : VecModel,
        v.len ≤ vF.len ∧ vF.len ≤ vF.data.length ∧
        (∀ fuel, chunks.length < fuel →
          read_to_end2_loop fuel (chunks.map .chunk) v i0 iL =
            some ([], vF, .ok (vF.len - iL))) ∧
        (∀ e rest fuel, chunks.length < fuel →
          read_to_end2_loop fuel (chunks.map .chunk ++ .ioerr e :: rest) v i0 iL =
            some (rest, vF, .error (.os e))) := by
  intro chunks
  induction chunks with
  | nil =>
    intro v i0 iL _ hwf hi0 hsome
    set w := if v.len = v.capacity then v.reserve32 else v with hw
    have hwwf : w.len ≤ w.data.length := reserve_ite_wf v hwf
    have hwlen : w.len = v.len := reserve_ite_len v
    have hi0w : i0 ≤ w.spare_capacity_mut.length :=
      le_trans hi0 (reserve_ite_spare_le v)
    have hsomew : ∀ i, i < i0 → ∃ x, w.spare_capacity_mut[i]? = some (some x) := by
      intro i hi
      rw [hw, reserve_ite_spare_getElem v i (by omega)]
      exact hsome i hi
    refine ⟨⟨w.data.take w.len ++ asInitBuf ⟨w.spare_capacity_mut, i0⟩, w.len⟩,
      ?_, ?_, ?_, ?_⟩
    · show v.len ≤ w.len
      omega
    · show w.len ≤ (w.data.take w.len ++ asInitBuf ⟨w.spare_capacity_mut, i0⟩).length
      rw [List.length_append, asInitBuf_length]
      simp only [List.length_take]
      omega
    · intro fuel hfuel
      obtain ⟨f, rfl⟩ : ∃ f, fuel = f + 1 := ⟨fuel - 1, by omega⟩
      rw [List.map_nil, read_to_end2_loop_nil_step f v i0 iL w hw.symm hi0w hsomew]
    · intro e rest fuel hfuel
      obtain ⟨f, rfl⟩ : ∃ f, fuel = f + 1 := ⟨fuel - 1, by omega⟩
      rw [List.map_nil, List.nil_append,
        read_to_end2_loop_ioerr_step e rest f v i0 iL w hw.symm]
  | cons c cs ih =>
    intro v i0 iL hne hwf hi0 hsome
    set w := if v.len = v.capacity then v.reserve32 else v with hw
    have hwwf : w.len ≤ w.data.length := reserve_ite_wf v hwf
    have hwlen : w.len = v.len := reserve_ite_len v
    have hi0w : i0 ≤ w.spare_capacity_mut.length :=
      le_trans hi0 (reserve_ite_spare_le v)
    have hLpos : 0 < w.spare_capacity_mut.length := reserve_ite_spare_pos v hwf
    have hcne : c ≠ [] := hne c (by simp)
    have hcpos : 0 < c.length := List.length_pos.mpr hcne
    obtain ⟨hinv1, hinv2, hinv3⟩ :=
      read_to_end2_next_state_invariants c w i0 hwwf hi0w
    obtain ⟨vF, hvF0, hvF1, hvF2, hvF3⟩ := ih
      ⟨w.data.take w.len ++
          (c.take (min c.length w.spare_capacity_mut.length) ++
            (initView (asInitBuf ⟨w.spare_capacity_mut, i0⟩)).drop
              (min c.length w.spare_capacity_mut.length)).map some,
        w.len + min c.length w.spare_capacity_mut.length⟩
      (w.spare_capacity_mut.length - min c.length w.spare_capacity_mut.length) iL
      (fun c2 h2 => hne c2 (by simp [h2])) hinv1 hinv2 hinv3
    refine ⟨vF, ?_, hvF1, ?_, ?_⟩
    · have hlen2 : (⟨w.data.take w.len ++
          (c.take (min c.length w.spare_capacity_mut.length) ++
            (initView (asInitBuf ⟨w.spare_capacity_mut, i0⟩)).drop
              (min c.length w.spare_capacity_mut.length)).map some,
        w.len + min c.length w.spare_capacity_mut.length⟩ : VecModel).len =
          w.len + min c.length w.spare_capacity_mut.length := rfl
      omega
    · intro fuel hfuel
      obtain ⟨f, rfl⟩ : ∃ f, fuel = f + 1 := ⟨fuel - 1, by omega⟩
      rw [List.map_cons,
        read_to_end2_loop_chunk_step c (cs.map .chunk) f v i0 iL w hw.symm hi0w
          hLpos hcne]
      exact hvF2 f (by simpa using hfuel)
    · intro e rest fuel hfuel
      obtain ⟨f, rfl⟩ : ∃ f, fuel = f + 1 := ⟨fuel - 1, by omega⟩
      rw [List.map_cons, List.cons_append,
        read_to_end2_loop_chunk_step c
          (cs.map SourceItem.chunk ++ SourceItem.ioerr e :: rest) f v i0
          iL w hw.symm hi0w hLpos hcne]
      exact hvF3 e rest f (by simpa using hfuel)

/-- Whenever the read_to_end2 loop returns Ok, the reported count is the
final logical length minus the recorded initial length: this is a loop
invariant holding for every source and every amount of fuel. -/
theorem read_to_end2_loop_ok_val :
    ∀ (fuel : Nat) (src : Source) (v : VecModel) (i0 iL : Nat),
      match read_to_end2_loop fuel src v i0 iL with
      | some (_, vF, .ok n) => n = vF.len - iL
      | _ => True := by
  intro fuel
  induction fuel with
  | zero =>
    intro src v i0 iL
    simp [read_to_end2_loop]
  | succ fuel ih =>
    intro src v i0 iL
    simp only [read_to_end2_loop]
    split
    · rename_i heq
      split at heq
      · simp at heq
      · rename_i src2 nread rb2 hread
        split at heq
        · simp only [Option.some.injEq, Prod.mk.injEq, Except.ok.injEq] at heq
          obtain ⟨h1, h2, h3⟩ := heq
          subst h2
          subst h3
          rfl
        · split at heq
          · simp at heq
          · have ihx := ih src2
              ⟨(if v.len = v.capacity then v.reserve32 else v).data.take
                  (if v.len = v.capacity then v.reserve32 else v).len ++ rb2.buf,
                (if v.len = v.capacity then v.reserve32 else v).len + nread⟩
              (rb2.initialized - nread) iL
            rw [heq] at ihx
            exact ihx
    · exact trivial

/-- C5: read_to_end2 reports, on the terminating 0-byte read, exactly the
number of bytes appended since the call began (final length minus initial
length); each read of n > 0 bytes advances the logical length by exactly
n (one loop iteration passes to the next with the length raised by the
read count); and when the source fails after some successful chunks, the
error is returned immediately with the vector in exactly the state the
successful iterations committed (same contents and length as the clean
run over those chunks). -/
theorem c5_read_to_end2_totals_and_error :
    (∀ (src : Source) (v : VecModel),
      match read_to_end2 src v with
      | some (_, vF, .ok n) => n = vF.len - v.len
      | _ => True) ∧
    (∀ (c : List Nat) (rest : Source) (fuel : Nat) (v : VecModel) (i0 iL : Nat),
      v.len ≤ v.data.length → i0 ≤ v.spare_capacity_mut.length → c ≠ [] →
      ∃ (v2 : VecModel) (i2 n : Nat), 0 < n ∧
        read_to_end2_loop (fuel + 1) (.chunk c :: rest) v i0 iL =
          read_to_end2_loop fuel rest v2 i2 iL ∧
        v2.len = v.len + n) ∧
    (∀ (chunks : List (List Nat)) (v : VecModel),
      (∀ c ∈ chunks, c ≠ []) → v.len ≤ v.data.length →
      ∃ vF : VecModel,
        read_to_end2 (chunks.map .chunk) v = some ([], vF, .ok (vF.len - v.len)) ∧
        (∀ e rest, read_to_end2 (chunks.map .chunk ++ .ioerr e :: rest) v =
          some (rest, vF, .error (.os e)))) := by
  refine ⟨?_, ?_, ?_⟩
  · intro src v
    exact read_to_end2_loop_ok_val (src.length + 1) src v 0 v.len
  · intro c rest fuel v i0 iL hwf hi0 hc
    have hwwf : (if v.len = v.capacity then v.reserve32 else v).len ≤
        (if v.len = v.capacity then v.reserve32 else v).data.length :=
      reserve_ite_wf v hwf
    have hwlen := reserve_ite_len v
    have hi0w : i0 ≤
        (if v.len = v.capacity then v.reserve32 else v).spare_capacity_mut.length :=
      le_trans hi0 (reserve_ite_spare_le v)
    have hLpos := reserve_ite_spare_pos v hwf
    have hcpos : 0 < c.length := List.length_pos.mpr hc
    refine ⟨⟨(if v.len = v.capacity then v.reserve32 else v).data.take
        (if v.len = v.capacity then v.reserve32 else v).len ++
          (c.take (min c.length
              (if v.len = v.capacity then v.reserve32 else v
                ).spare_capacity_mut.length) ++
            (initView (asInitBuf ⟨(if v.len = v.capacity then v.reserve32 else v
              ).spare_capacity_mut, i0⟩)).drop
              (min c.length (if v.len = v.capacity then v.reserve32 else v
                ).spare_capacity_mut.length)).map some,
        (if v.len = v.capacity then v.reserve32 else v).len +
          min c.length (if v.len = v.capacity then v.reserve32 else v
            ).spare_capacity_mut.length⟩,
      (if v.len = v.capacity then v.reserve32 else v).spare_capacity_mut.length -
        min c.length (if v.len = v.capacity then v.reserve32 else v
          ).spare_capacity_mut.length,
      min c.length (if v.len = v.capacity then v.reserve32 else v
        ).spare_capacity_mut.length,
      by omega,
      read_to_end2_loop_chunk_step c rest fuel v i0 iL _ rfl hi0w hLpos hc,
      ?_⟩
    show (if v.len = v.capacity then v.reserve32 else v).len +
        min c.length (if v.len = v.capacity then v.reserve32 else v
          ).spare_capacity_mut.length = v.len +
        min c.length (if v.len = v.capacity then v.reserve32 else v
          ).spare_capacity_mut.length
    omega
  · intro chunks v hne hwf
    obtain ⟨vF, _, _, hrun1, hrun2⟩ := read_to_end2_chunks chunks v 0 v.len hne hwf
      (Nat.zero_le _) (fun i hi => absurd hi (Nat.not_lt_zero i))
    refine ⟨vF, ?_, ?_⟩
    · exact hrun1 ((chunks.map SourceItem.chunk).length + 1) (by simp)
    · intro e rest
      exact hrun2 e rest ((chunks.map SourceItem.chunk ++
        SourceItem.ioerr e :: rest).length + 1) (by simp; omega)

/-- C5 witness: the theorem applied to the one-chunk script [5] on an
empty vector, computing the concrete final vector (length 1, holding the
byte 5, with 31 zero-initialized spare bytes), for both the clean run and
the run that fails right after the chunk. -/
theorem c5_witness :
    (read_to_end2 [SourceItem.chunk [5]] (⟨[], 0⟩ : VecModel) =
      some ([], ⟨some 5 :: List.replicate 31 (some 0), 1⟩, .ok 1)) ∧
    (read_to_end2 [SourceItem.chunk [5], SourceItem.ioerr 9] (⟨[], 0⟩ : VecModel) =
      some ([], ⟨some 5 :: List.replicate 31 (some 0), 1⟩, .error (.os 9))) := by
  obtain ⟨vF, h1, h2⟩ := c5_read_to_end2_totals_and_error.2.2 [[5]]
    (⟨[], 0⟩ : VecModel) (by decide) (by decide)
  have h1d : read_to_end2 [SourceItem.chunk [5]] (⟨[], 0⟩ : VecModel) =
      some ([], ⟨some 5 :: List.replicate 31 (some 0), 1⟩, .ok 1) := by decide
  have heq := h1d.symm.trans h1
  simp only [Option.some.injEq, Prod.mk.injEq] at heq
  obtain ⟨-, hvF, -⟩ := heq
  constructor
  · exact h1d
  · have h3 := h2 9 []
    rw [← hvF] at h3
    exact h3
